import Mathlib

/-!
Verification of the dc-prototype storage/proof engine.

Shallow embedding of the DataCapsule prototype (crates rbaseapi, rexpapi,
rustdc).  Machine bytes are modelled as `Nat`, byte arrays as `List Nat`.
The cryptographic primitives (SHA-256, ECDSA-P256) are external collaborators
(spec §6), so every function that calls them is parameterised over the hash
and signature-verification functions it uses.
-/

namespace DC

/-- 32-byte SHA-256 digests (`pub type Hash = [u8; 32]` in shared/crypto.rs). -/
abbrev Hash : Type := List Nat

/-- DER-encoded ECDSA signatures (`pub type Signature = Vec<u8>`). -/
abbrev Signature : Type := List Nat

/-- Encrypted record payload (`pub type RecordBody = Vec<u8>`). -/
abbrev RecordBody : Type := List Nat

/-- `pub const NULL_HASH: Hash = [0; 32]`. -/
def NULL_HASH : Hash := List.replicate 32 0

/-- `RecordBackPtr` from rbaseapi/src/shared/dc_repr.rs. -/
structure RecordBackPtr where
  ptr : Hash
  offset : Option Nat
deriving DecidableEq, Repr

/-- `RecordHeader` from rbaseapi/src/shared/dc_repr.rs. -/
structure RecordHeader where
  body_ptr : Hash
  record_backptrs : List RecordBackPtr
deriving DecidableEq, Repr

/-- `Record` from rbaseapi/src/shared/dc_repr.rs. -/
structure Record where
  body : RecordBody
  header : RecordHeader
deriving DecidableEq, Repr

/-- `RecordWitness` from rbaseapi/src/shared/dc_repr.rs. -/
inductive RecordWitness where
  | Signature (sig : DC.Signature)
  | NextRecordPtr (h : Hash) (d : Nat)
  | None
deriving DecidableEq, Repr

/-- `RecordWitness::closer_than`, case for case from dc_repr.rs. -/
def RecordWitness.closer_than : RecordWitness → RecordWitness → Bool
  | .None, .None => false
  | .Signature _, .None => true
  | .None, .Signature _ => false
  | .NextRecordPtr _ _, .None => true
  | .None, .NextRecordPtr _ _ => false
  | .Signature _, .Signature _ => false
  | .Signature _, .NextRecordPtr _ _ => true
  | .NextRecordPtr _ _, .Signature _ => false
  | .NextRecordPtr _ d1, .NextRecordPtr _ d2 => d1 < d2

/-- `RecordWitness::closer` from dc_repr.rs. -/
def RecordWitness.closer (w1 w2 : RecordWitness) : RecordWitness :=
  if w1.closer_than w2 then w1 else w2

/-- Distance of a witness from a signature, realising the spec order
`Signature < NextRecordPtr(_, d1) < NextRecordPtr(_, d2) iff d1 < d2 < None`:
a signature is distance 0, `NextRecordPtr(_, d)` is distance `d + 1`, and an
unknown witness is infinitely far. -/
def RecordWitness.rank : RecordWitness → WithTop Nat
  | .Signature _ => (0 : Nat)
  | .NextRecordPtr _ d => ((d + 1 : Nat) : WithTop Nat)
  | .None => ⊤

theorem RecordWitness.closer_than_iff_rank (a b : RecordWitness) :
    a.closer_than b = true ↔ a.rank < b.rank := by
  cases a <;> cases b <;>
    simp [RecordWitness.closer_than, RecordWitness.rank, WithTop.coe_lt_top,
      Nat.cast_lt] <;>
    first
      | (norm_cast; omega)
      | exact_mod_cast WithTop.coe_lt_top _

theorem RecordWitness.rank_closer (a b : RecordWitness) :
    (RecordWitness.closer a b).rank = min a.rank b.rank := by
  unfold RecordWitness.closer
  by_cases h : a.closer_than b = true
  · rw [if_pos h, eq_comm, min_eq_left_iff]
    exact le_of_lt ((closer_than_iff_rank a b).mp h)
  · rw [if_neg h, eq_comm, min_eq_right_iff]
    exact le_of_not_lt (fun hlt => h ((closer_than_iff_rank a b).mpr hlt))

/-- The per-capsule witness table (`RecordWitnessStorage`): a missing or
undecodable row is read back as `RecordWitness::None`, so the table is a total
function. -/
abbrev WitnessStore := Hash → RecordWitness

/-- `RecordWitnessStorage::update_record_witness` from
rbaseapi/src/server/storage.rs: atomically replace the stored witness by
`closer(old, proposed)` and return the previous value. -/
def update_record_witness (ws : WitnessStore) (record_name : Hash)
    (new_proposed_witness : RecordWitness) : WitnessStore × RecordWitness :=
  let old := ws record_name
  (fun n => if n = record_name then RecordWitness.closer old new_proposed_witness else ws n,
   old)

/-- A sequence of `update_record_witness` calls applied in order. -/
def applyWitnessUpdates : List (Hash × RecordWitness) → WitnessStore → WitnessStore
  | [], ws => ws
  | (r, p) :: rest, ws => applyWitnessUpdates rest (update_record_witness ws r p).1

theorem update_record_witness_rank_le (ws : WitnessStore) (r : Hash)
    (p : RecordWitness) (n : Hash) :
    ((update_record_witness ws r p).1 n).rank ≤ (ws n).rank := by
  unfold update_record_witness
  by_cases h : n = r
  · subst h
    simp [RecordWitness.rank_closer]
  · simp [h]

theorem applyWitnessUpdates_rank_le (us : List (Hash × RecordWitness))
    (ws : WitnessStore) (n : Hash) :
    ((applyWitnessUpdates us ws) n).rank ≤ (ws n).rank := by
  induction us generalizing ws with
  | nil => exact le_refl _
  | cons u rest ih =>
      obtain ⟨r, p⟩ := u
      exact le_trans (ih _) (update_record_witness_rank_le ws r p n)

/-- C5: witness monotonicity (I3).  The code order `closer_than` is exactly
the spec order `Signature < NextRecordPtr(_, d1) < NextRecordPtr(_, d2) iff
d1 < d2 < None` (captured by `rank`); a single `update_record_witness` call
never moves any stored witness farther from a signature; hence the stored
witness is monotone over any sequence of updates. -/
theorem witness_monotonicity :
    (∀ a b : RecordWitness, a.closer_than b = true ↔ a.rank < b.rank) ∧
    (∀ (ws : WitnessStore) (r : Hash) (p : RecordWitness) (n : Hash),
      ((update_record_witness ws r p).1 n).rank ≤ (ws n).rank) ∧
    (∀ (us : List (Hash × RecordWitness)) (ws : WitnessStore) (n : Hash),
      ((applyWitnessUpdates us ws) n).rank ≤ (ws n).rank) :=
  ⟨RecordWitness.closer_than_iff_rank, update_record_witness_rank_le,
   applyWitnessUpdates_rank_le⟩

/-! ### Record naming (rbaseapi/src/shared/crypto.rs) -/

/-- Byte stream fed to the SHA-256 streaming hasher by `hash_record_header`:
the `body_ptr`, then the `ptr` of each backptr in order.  Offsets are not
hashed (the source has `// TODO: hash additional_record_ptr.offset`). -/
def headerHashStream (h : RecordHeader) : List Nat :=
  h.body_ptr ++ (h.record_backptrs.map (fun p => p.ptr)).flatten

/-- `hash_record_header`, parameterised over the external SHA-256 function
(spec §6 treats the crypto primitives as consumed contracts). -/
def hash_record_header (sha : List Nat → Hash) (h : RecordHeader) : Hash :=
  sha (headerHashStream h)

/-- Spec §3, written from the spec sentence: "Record name =
SHA-256(body_ptr ‖ concat(ptr for each backptr))". -/
def specRecordNameStream (h : RecordHeader) : List Nat :=
  h.body_ptr ++ List.flatten (h.record_backptrs.map (fun p => p.ptr))

/-- C9: record naming.  `hash_record_header` hashes exactly the byte stream
`body_ptr ‖ concat(ptr for each backptr)` of the spec, and consequently two
headers that differ only in their backptr offsets receive the same record
name. -/
theorem record_naming :
    (∀ (sha : List Nat → Hash) (h : RecordHeader),
      hash_record_header sha h = sha (specRecordNameStream h)) ∧
    (∀ (sha : List Nat → Hash) (h1 h2 : RecordHeader),
      h1.body_ptr = h2.body_ptr →
      h1.record_backptrs.map (fun p => p.ptr) =
        h2.record_backptrs.map (fun p => p.ptr) →
      hash_record_header sha h1 = hash_record_header sha h2) := by
  constructor
  · intro sha h
    rfl
  · intro sha h1 h2 hb hp
    unfold hash_record_header headerHashStream
    rw [hb, hp]

/-- Witness: two concrete headers that differ only in the backptr offset get
the same name. -/
theorem record_naming_witness :
    (⟨[1], [⟨[2], some 3⟩]⟩ : RecordHeader).body_ptr =
        (⟨[1], [⟨[2], Option.none⟩]⟩ : RecordHeader).body_ptr ∧
    hash_record_header (fun l => l) ⟨[1], [⟨[2], some 3⟩]⟩ =
      hash_record_header (fun l => l) ⟨[1], [⟨[2], Option.none⟩]⟩ :=
  ⟨rfl, record_naming.2 (fun l => l) _ _ rfl rfl⟩

/-! ### DAG-mode write path (rbaseapi/src/server/writer.rs) -/

/-- Record body table (`RecordBodyStorage`): body hash to body bytes. -/
abbrev BodyStore := Hash → Option RecordBody

/-- Record header table (`RecordHeaderStorage.headers`): record name to
header.  (The reverse-pointer / heads / roots bookkeeping of the full store
is not involved in the claims below.) -/
abbrev HeaderStore := Hash → Option RecordHeader

def BodyStore.store (bs : BodyStore) (k : Hash) (v : RecordBody) : BodyStore :=
  fun n => if n = k then some v else bs n

def HeaderStore.store (hs : HeaderStore) (k : Hash) (v : RecordHeader) : HeaderStore :=
  fun n => if n = k then some v else hs n

/-- `store_record` (identical in rbaseapi/src/server/writer.rs and
rustdc/src/server/writer.rs): store the body under `header.body_ptr`, store
the header under its hash, return the record name.  The source performs no
validation (`// TODO: input validation eg making sure body_ptr is valid hash
of body`). -/
def store_record (sha : List Nat → Hash) (record : Record)
    (bs : BodyStore) (hs : HeaderStore) : Hash × BodyStore × HeaderStore :=
  let bs1 := bs.store record.header.body_ptr record.body
  let record_name := hash_record_header sha record.header
  let hs1 := hs.store record_name record.header
  (record_name, bs1, hs1)

/-- DAG-mode write responses (subset of shared/request.rs `Response`). -/
inductive WResponse where
  | WriteData (name : Hash)
  | Failed
deriving DecidableEq, Repr

/-- `handle_write` from rbaseapi/src/server/writer.rs: reply
`WriteData(record_name)` whenever `store_record` succeeds. -/
def handle_write (sha : List Nat → Hash) (record : Record)
    (bs : BodyStore) (hs : HeaderStore) : WResponse × BodyStore × HeaderStore :=
  let r := store_record sha record bs hs
  (WResponse.WriteData r.1, r.2)

/-- C2 (code bug, spec rule N2): the server does NOT reject a DAG-mode write
whose `body_ptr` differs from the hash of the body.  For any such record,
`handle_write` replies `WriteData` and persists both the body (under the
bogus `body_ptr`) and the header. -/
theorem write_accepts_bad_body_ptr (sha hashBody : List Nat → Hash)
    (record : Record) (bs : BodyStore) (hs : HeaderStore)
    (hbad : record.header.body_ptr ≠ hashBody record.body) :
    (handle_write sha record bs hs).1 =
        WResponse.WriteData (hash_record_header sha record.header) ∧
    (handle_write sha record bs hs).2.1 record.header.body_ptr =
        some record.body ∧
    (handle_write sha record bs hs).2.2 (hash_record_header sha record.header) =
        some record.header := by
  refine ⟨rfl, ?_, ?_⟩ <;>
    simp [handle_write, store_record, BodyStore.store, HeaderStore.store]

/-- A concrete hash function for witnesses: identity on byte streams. -/
def cShaId : List Nat → Hash := fun l => l

/-- A concrete constant hash function for witnesses. -/
def cSha0 : List Nat → Hash := fun _ => [0]

/-- Witness: a record whose `body_ptr = [2]` differs from the body hash `[0]`
is still stored and acknowledged. -/
theorem write_accepts_bad_body_ptr_witness :
    (⟨[1], ⟨[2], []⟩⟩ : Record).header.body_ptr ≠
        cSha0 (⟨[1], ⟨[2], []⟩⟩ : Record).body ∧
    (handle_write cShaId ⟨[1], ⟨[2], []⟩⟩ (fun _ => Option.none)
          (fun _ => Option.none)).1 =
        WResponse.WriteData (hash_record_header cShaId ⟨[2], []⟩) :=
  ⟨by decide,
   (write_accepts_bad_body_ptr cShaId cSha0 ⟨[1], ⟨[2], []⟩⟩
      (fun _ => Option.none) (fun _ => Option.none) (by decide)).1⟩

/-! ### DAG-mode proof verification (rbaseapi/src/client/p2pclient.rs) -/

/-- `BestEffortProof` from rbaseapi/src/shared/dc_repr.rs. -/
structure BestEffortProof where
  chain : List RecordHeader
  signature : Option (Hash × DC.Signature)
deriving DecidableEq, Repr

/-- The client's proven-hash cache (a `quick_cache` LRU keyed by record name).
Modelled as the set of inserted names; eviction does not matter to a single
call starting from the empty cache. -/
abbrev ProvenCache := List Hash

def cacheContains (c : ProvenCache) (h : Hash) : Bool := decide (h ∈ c)

def cacheInsert (h : Hash) (c : ProvenCache) : ProvenCache := h :: c

/-- The insertion loop run by `verify_proof` when the chain reaches a cached
name: walk the full chain from its start, inserting every name, and stop
right after inserting `stop`. -/
def insertChainUpTo (sha : List Nat → Hash) (stop : Hash) :
    List RecordHeader → ProvenCache → ProvenCache
  | [], c => c
  | hdr :: rest, c =>
      let n := hash_record_header sha hdr
      let c1 := cacheInsert n c
      if n = stop then c1 else insertChainUpTo sha stop rest c1

/-- The `while let Some(curr_record_header) = iter.next()` loop of
`verify_proof`: a cache hit on the current name ends with success (inserting
the chain prefix); otherwise the current header must list the previous
record's name among its backptrs; a chain that runs out fails. -/
def proofChainWalk (sha : List Nat → Hash) (fullChain : List RecordHeader) :
    RecordHeader → List RecordHeader → ProvenCache → Option ProvenCache
  | _, [], _ => none
  | prev, curr :: rest, cache =>
      let curr_name := hash_record_header sha curr
      if cacheContains cache curr_name then
        some (insertChainUpTo sha curr_name fullChain cache)
      else if curr.record_backptrs.any
          (fun p => decide (p.ptr = hash_record_header sha prev)) then
        proofChainWalk sha fullChain curr rest cache
      else
        none

/-- The chain part of `verify_proof`: the first header must hash to the
record to prove, then the walk runs over the rest. -/
def verifyProofChain (sha : List Nat → Hash) (target : Hash)
    (chain : List RecordHeader) (cache : ProvenCache) : Option ProvenCache :=
  match chain with
  | [] => none
  | first :: rest =>
      if hash_record_header sha first ≠ target then none
      else proofChainWalk sha chain first rest cache

/-- `verify_proof` from rbaseapi/src/client/p2pclient.rs, parameterised over
SHA-256 and ECDSA verification against the writer public key.  `some c`
means the proof was accepted, leaving cache `c`; `none` means
`Err(BadProof ...)`. -/
def verify_proof (sha : List Nat → Hash) (verifySig : DC.Signature → Hash → Bool)
    (record_name_to_prove : Hash) (proof : BestEffortProof)
    (cache : ProvenCache) : Option ProvenCache :=
  match proof.signature with
  | some (signed_record_name, signature) =>
      if ¬ verifySig signature signed_record_name then none
      else
        let cache1 := cacheInsert signed_record_name cache
        if signed_record_name = record_name_to_prove then some cache1
        else verifyProofChain sha record_name_to_prove proof.chain cache1
  | none => verifyProofChain sha record_name_to_prove proof.chain cache

/-- Consecutive backptr linkage along a chain of headers: each header after
the first lists the previous header's name among its `record_backptrs`. -/
def chainBackptrLinked (sha : List Nat → Hash) : List RecordHeader → Bool
  | [] => true
  | [_] => true
  | a :: b :: rest =>
      b.record_backptrs.any (fun p => decide (p.ptr = hash_record_header sha a)) &&
      chainBackptrLinked sha (b :: rest)

/-- The acceptance condition exactly as claim C1 states it: the chain is a
nonempty sequence whose first header hashes to the target, consecutive
headers are backptr-linked throughout, and the chain ends at a header whose
hash carries a valid writer signature. -/
def c1ClaimedAccept (sha : List Nat → Hash) (verifySig : DC.Signature → Hash → Bool)
    (target : Hash) (proof : BestEffortProof) : Bool :=
  match proof.chain, proof.signature with
  | [], _ => false
  | _, Option.none => false
  | first :: rest, some (s, σ) =>
      decide (hash_record_header sha first = target) &&
      chainBackptrLinked sha (first :: rest) &&
      decide (hash_record_header sha (rest.getLastD first) = s) &&
      verifySig σ s

/-- A concrete signature check for counterexamples: a signature is valid iff
it equals the signed hash. -/
def cSigEq : DC.Signature → Hash → Bool := fun σ h => decide (σ = h)

/-- C1 as stated is false on the code: a proof whose signature component
directly names the target is accepted with an empty chain, while the claimed
condition requires a nonempty, backptr-linked chain. -/
theorem c1_counterexample :
    (verify_proof cShaId cSigEq [1] ⟨[], some ([1], [1])⟩ []).isSome = true ∧
    c1ClaimedAccept cShaId cSigEq [1] ⟨[], some ([1], [1])⟩ = false := by
  decide

/-- The acceptance condition that actually holds (amended C1): the proof must
carry a valid writer signature over some record name `s`, and either `s` is
the target itself (the chain is then ignored), or the chain starts at a
header hashing to the target and reaches a first occurrence of `s` through
backptr-linked steps; the link into the `s`-named header itself is not
checked, and entries after it are ignored. -/
def c1AmendedAccept (sha : List Nat → Hash) (verifySig : DC.Signature → Hash → Bool)
    (target : Hash) (proof : BestEffortProof) : Prop :=
  ∃ s σ, proof.signature = some (s, σ) ∧ verifySig σ s = true ∧
    (s = target ∨
      ∃ (c0 : RecordHeader) (mid : List RecordHeader) (hit : RecordHeader)
        (rest2 : List RecordHeader),
        proof.chain = c0 :: (mid ++ hit :: rest2) ∧
        hash_record_header sha c0 = target ∧
        (∀ h ∈ mid, hash_record_header sha h ≠ s) ∧
        chainBackptrLinked sha (c0 :: mid) = true ∧
        hash_record_header sha hit = s)

theorem proofChainWalk_isSome_iff (sha : List Nat → Hash)
    (full : List RecordHeader) (cache : ProvenCache) (prev : RecordHeader)
    (rest : List RecordHeader) :
    (proofChainWalk sha full prev rest cache).isSome = true ↔
      ∃ (mid : List RecordHeader) (hit : RecordHeader) (tail2 : List RecordHeader),
        rest = mid ++ hit :: tail2 ∧
        (∀ h ∈ mid, cacheContains cache (hash_record_header sha h) = false) ∧
        cacheContains cache (hash_record_header sha hit) = true ∧
        chainBackptrLinked sha (prev :: mid) = true := by
  induction rest generalizing prev with
  | nil =>
      simp only [proofChainWalk, Option.isSome_none, Bool.false_eq_true,
        false_iff]
      rintro ⟨mid, hit, tail2, habs, -⟩
      exact (List.cons_ne_nil hit tail2) (List.append_eq_nil.mp habs.symm).2
  | cons curr rs ih =>
      by_cases hc : cacheContains cache (hash_record_header sha curr) = true
      · simp only [proofChainWalk, hc, if_pos, Option.isSome_some, true_iff]
        exact ⟨[], curr, rs, rfl, by simp, hc, by simp [chainBackptrLinked]⟩
      · by_cases hl : curr.record_backptrs.any
            (fun p => decide (p.ptr = hash_record_header sha prev)) = true
        · rw [show proofChainWalk sha full prev (curr :: rs) cache =
              proofChainWalk sha full curr rs cache by
            simp [proofChainWalk, hc, hl]]
          rw [ih curr]
          constructor
          · rintro ⟨mid, hit, tail2, hrs, hmiss, hhit, hlink⟩
            refine ⟨curr :: mid, hit, tail2, by simp [hrs], ?_, hhit, ?_⟩
            · intro h hmem
              rcases List.mem_cons.mp hmem with h0 | h0
              · subst h0; simpa using hc
              · exact hmiss h h0
            · simp [chainBackptrLinked, hl, hlink]
          · rintro ⟨mid, hit, tail2, hrs, hmiss, hhit, hlink⟩
            cases mid with
            | nil =>
                exfalso
                simp only [List.nil_append, List.cons.injEq] at hrs
                exact hc (hrs.1 ▸ hhit)
            | cons m ms =>
                simp only [List.cons_append, List.cons.injEq] at hrs
                obtain ⟨hm, hrs2⟩ := hrs
                subst hm
                refine ⟨ms, hit, tail2, hrs2, ?_, hhit, ?_⟩
                · exact fun h hmem => hmiss h (List.mem_cons_of_mem _ hmem)
                · have := hlink
                  simp only [chainBackptrLinked, Bool.and_eq_true] at this
                  exact this.2
        · rw [show proofChainWalk sha full prev (curr :: rs) cache = none by
            simp [proofChainWalk, hc, hl]]
          simp only [Option.isSome_none, Bool.false_eq_true, false_iff]
          rintro ⟨mid, hit, tail2, hrs, hmiss, hhit, hlink⟩
          cases mid with
          | nil =>
              simp only [List.nil_append, List.cons.injEq] at hrs
              exact hc (hrs.1 ▸ hhit)
          | cons m ms =>
              simp only [List.cons_append, List.cons.injEq] at hrs
              obtain ⟨hm, -⟩ := hrs
              subst hm
              simp only [chainBackptrLinked, Bool.and_eq_true] at hlink
              exact hl hlink.1

theorem cacheContains_nil (h : Hash) : cacheContains [] h = false := by
  simp [cacheContains]

theorem cacheContains_insert_nil (s h : Hash) :
    cacheContains (cacheInsert s []) h = decide (h = s) := by
  simp [cacheContains, cacheInsert]

/-- C1 (amended): starting from the empty proven-hash cache, `verify_proof`
accepts exactly when the proof carries a valid writer signature over some
name `s` and either `s` is the target or the chain walks, backptr-linked,
from a header hashing to the target to a first occurrence of `s`. -/
theorem c1_amended (sha : List Nat → Hash) (verifySig : DC.Signature → Hash → Bool)
    (target : Hash) (proof : BestEffortProof) :
    (verify_proof sha verifySig target proof []).isSome = true ↔
      c1AmendedAccept sha verifySig target proof := by
  obtain ⟨chain, sig⟩ := proof
  unfold c1AmendedAccept verify_proof
  cases sig with
  | none =>
      dsimp only
      constructor
      · intro hacc
        exfalso
        cases chain with
        | nil => simp [verifyProofChain] at hacc
        | cons first rest =>
            rw [show verifyProofChain sha target (first :: rest) [] =
                (if hash_record_header sha first ≠ target then none
                 else proofChainWalk sha (first :: rest) first rest []) from
              rfl] at hacc
            by_cases ht : hash_record_header sha first = target
            · rw [if_neg (by simpa using ht)] at hacc
              rw [proofChainWalk_isSome_iff] at hacc
              obtain ⟨mid, hit, tail2, hr, hm, hhit, hl⟩ := hacc
              rw [cacheContains_nil] at hhit
              exact Bool.false_ne_true hhit
            · rw [if_pos (by simpa using ht)] at hacc
              simp at hacc
      · rintro ⟨s, σ, habs, -⟩
        exact Option.noConfusion habs
  | some pr =>
      obtain ⟨s, σ⟩ := pr
      dsimp only
      by_cases hv : verifySig σ s = true
      · rw [if_neg (by simp [hv])]
        by_cases hst : s = target
        · subst hst
          rw [if_pos rfl]
          simp only [Option.isSome_some, true_iff]
          exact ⟨s, σ, rfl, hv, Or.inl rfl⟩
        · rw [if_neg hst]
          cases chain with
          | nil =>
              simp only [verifyProofChain, Option.isSome_none,
                Bool.false_eq_true, false_iff]
              rintro ⟨s2, σ2, heq, -, hdis⟩
              obtain ⟨hs2, hσ2⟩ : s2 = s ∧ σ2 = σ := by
                injection heq with h1
                injection h1 with h2 h3
                exact ⟨h2.symm, h3.symm⟩
              subst hs2
              rcases hdis with h | ⟨c0, mid, hit, rest2, habs, -⟩
              · exact hst h
              · exact List.noConfusion habs
          | cons first rest =>
              rw [show verifyProofChain sha target (first :: rest)
                    (cacheInsert s []) =
                  (if hash_record_header sha first ≠ target then none
                   else proofChainWalk sha (first :: rest) first rest
                     (cacheInsert s [])) from rfl]
              by_cases ht : hash_record_header sha first = target
              · rw [if_neg (by simpa using ht)]
                rw [proofChainWalk_isSome_iff]
                constructor
                · rintro ⟨mid, hit, tail2, hrest, hmiss, hhit, hlink⟩
                  refine ⟨s, σ, rfl, hv, Or.inr
                    ⟨first, mid, hit, tail2, by simp [hrest], ht, ?_, hlink, ?_⟩⟩
                  · intro h hmem
                    have := hmiss h hmem
                    rw [cacheContains_insert_nil] at this
                    simpa using this
                  · have := hhit
                    rw [cacheContains_insert_nil] at this
                    simpa using this
                · rintro ⟨s2, σ2, heq, hv2, hdis⟩
                  obtain ⟨hs2, hσ2⟩ : s2 = s ∧ σ2 = σ := by
                    injection heq with h1
                    injection h1 with h2 h3
                    exact ⟨h2.symm, h3.symm⟩
                  subst hs2
                  rcases hdis with h | ⟨c0, mid, hit, rest2, hch, hc0, hmiss, hlink, hhit⟩
                  · exact absurd h hst
                  · simp only [List.cons.injEq] at hch
                    obtain ⟨hc0e, hreste⟩ := hch
                    subst hc0e
                    refine ⟨mid, hit, rest2, hreste, ?_,
                      by rw [cacheContains_insert_nil]; simpa using hhit, hlink⟩
                    intro h hmem
                    rw [cacheContains_insert_nil]
                    simpa using hmiss h hmem
              · rw [if_pos (by simpa using ht)]
                simp only [Option.isSome_none, Bool.false_eq_true, false_iff]
                rintro ⟨s2, σ2, heq, hv2, hdis⟩
                obtain ⟨hs2, hσ2⟩ : s2 = s ∧ σ2 = σ := by
                  injection heq with h1
                  injection h1 with h2 h3
                  exact ⟨h2.symm, h3.symm⟩
                subst hs2
                rcases hdis with h | ⟨c0, mid, hit, rest2, hch, hc0, -⟩
                · exact hst h
                · simp only [List.cons.injEq] at hch
                  exact ht (hch.1 ▸ hc0)
      · rw [if_pos (by simp [hv])]
        simp only [Option.isSome_none, Bool.false_eq_true, false_iff]
        rintro ⟨s2, σ2, heq, hv2, -⟩
        obtain ⟨hs2, hσ2⟩ : s2 = s ∧ σ2 = σ := by
          injection heq with h1
          injection h1 with h2 h3
          exact ⟨h2.symm, h3.symm⟩
        subst hs2; subst hσ2
        exact hv hv2

/-! ### Witness propagation (rbaseapi/src/server/writer.rs) -/

theorem update_record_witness_snd (ws : WitnessStore) (r : Hash)
    (p : RecordWitness) : (update_record_witness ws r p).2 = ws r := rfl

/-- One round of the `while !curr_wave.is_empty()` loop of
`update_ancestor_witnesses`: each `(record_name, parent_record_name)` pair
proposes `NextRecordPtr(parent, d)`, updates the witness table, and expands
the record's backptrs into the next wave when the proposal was strictly
closer than the stored witness.  `none` models the `Err(MissingStorage ...)`
early return on a missing header. -/
def propagationRound (hs : HeaderStore) (d : Nat) :
    List (Hash × Hash) → WitnessStore → Option (WitnessStore × List (Hash × Hash))
  | [], ws => some (ws, [])
  | (record_name, parent_name) :: rest, ws =>
      match hs record_name with
      | Option.none => none
      | some hdr =>
          match propagationRound hs d rest
              (update_record_witness ws record_name
                (RecordWitness.NextRecordPtr parent_name d)).1 with
          | Option.none => none
          | some (ws2, next) =>
              some (ws2,
                (if (RecordWitness.NextRecordPtr parent_name d).closer_than
                      (update_record_witness ws record_name
                        (RecordWitness.NextRecordPtr parent_name d)).2 then
                    hdr.record_backptrs.map (fun p => (p.ptr, record_name))
                  else []) ++ next)

/-- The fuelled outer loop of `update_ancestor_witnesses`: `none` when the
fuel runs out before the wave empties, `some Option.none` for the `Err`
return on a missing header, `some (some ws)` for normal completion. -/
def propagationLoop (hs : HeaderStore) :
    Nat → List (Hash × Hash) → Nat → WitnessStore → Option (Option WitnessStore)
  | 0, wave, _, ws => if wave.isEmpty then some (some ws) else none
  | fuel+1, wave, d, ws =>
      if wave.isEmpty then some (some ws)
      else
        match propagationRound hs d wave ws with
        | Option.none => some Option.none
        | some (ws1, next) => propagationLoop hs fuel next (d+1) ws1

/-- `update_ancestor_witnesses` from rbaseapi/src/server/writer.rs: seed the
wave with the base record's backptrs at distance 1 and run the loop. -/
def update_ancestor_witnesses (hs : HeaderStore) (ws : WitnessStore)
    (base_record_name : Hash) (fuel : Nat) : Option (Option WitnessStore) :=
  match hs base_record_name with
  | Option.none => some Option.none
  | some hdr =>
      propagationLoop hs fuel
        (hdr.record_backptrs.map (fun p => (p.ptr, base_record_name))) 1 ws

/-- A finite physical header store given as an association list, matching the
claim's "finite stored set of record headers". -/
def storeLookup (store : List (Hash × RecordHeader)) : HeaderStore :=
  fun n => (store.find? (fun e => decide (e.1 = n))).map (fun e => e.2)

/-- Stored records whose witness is still farther than a distance-`d`
proposal: exactly those a round at distance `d` could improve and expand. -/
def improvableSet (store : List (Hash × RecordHeader)) (ws : WitnessStore)
    (d : Nat) : Finset Hash :=
  (store.map (fun e => e.1)).toFinset.filter
    (fun n => ((d + 1 : Nat) : WithTop Nat) < (ws n).rank)

theorem propagationRound_rank_le (hs : HeaderStore) (d : Nat)
    (wave : List (Hash × Hash)) (ws ws1 : WitnessStore)
    (next : List (Hash × Hash))
    (h : propagationRound hs d wave ws = some (ws1, next)) (n : Hash) :
    (ws1 n).rank ≤ (ws n).rank := by
  induction wave generalizing ws next with
  | nil =>
      simp only [propagationRound, Option.some.injEq, Prod.mk.injEq] at h
      rw [← h.1]
  | cons pair rest ih =>
      obtain ⟨rn, pn⟩ := pair
      rw [show propagationRound hs d ((rn, pn) :: rest) ws =
          (match hs rn with
           | Option.none => none
           | some hdr =>
              match propagationRound hs d rest
                  (update_record_witness ws rn
                    (RecordWitness.NextRecordPtr pn d)).1 with
              | Option.none => none
              | some (ws2, nx) =>
                  some (ws2,
                    (if (RecordWitness.NextRecordPtr pn d).closer_than
                          (update_record_witness ws rn
                            (RecordWitness.NextRecordPtr pn d)).2 then
                        hdr.record_backptrs.map (fun p => (p.ptr, rn))
                      else []) ++ nx)) from rfl] at h
      cases hhs : hs rn with
      | none => rw [hhs] at h; exact absurd h (by simp)
      | some hdr =>
          rw [hhs] at h
          cases hrec : propagationRound hs d rest
              (update_record_witness ws rn
                (RecordWitness.NextRecordPtr pn d)).1 with
          | none => rw [hrec] at h; simp at h
          | some pr =>
              obtain ⟨ws2, nx⟩ := pr
              rw [hrec] at h
              simp only [Option.some.injEq, Prod.mk.injEq] at h
              obtain ⟨hws, -⟩ := h
              subst hws
              exact le_trans (ih _ _ hrec)
                (update_record_witness_rank_le ws rn _ n)

theorem propagationRound_expansion (hs : HeaderStore) (d : Nat)
    (wave : List (Hash × Hash)) (ws ws1 : WitnessStore)
    (next : List (Hash × Hash))
    (h : propagationRound hs d wave ws = some (ws1, next)) (hne : next ≠ []) :
    ∃ n, (∃ hdr, hs n = some hdr) ∧
      ((d + 1 : Nat) : WithTop Nat) < (ws n).rank ∧
      (ws1 n).rank ≤ ((d + 1 : Nat) : WithTop Nat) := by
  induction wave generalizing ws next with
  | nil =>
      simp only [propagationRound, Option.some.injEq, Prod.mk.injEq] at h
      exact absurd h.2.symm hne
  | cons pair rest ih =>
      obtain ⟨rn, pn⟩ := pair
      rw [show propagationRound hs d ((rn, pn) :: rest) ws =
          (match hs rn with
           | Option.none => none
           | some hdr =>
              match propagationRound hs d rest
                  (update_record_witness ws rn
                    (RecordWitness.NextRecordPtr pn d)).1 with
              | Option.none => none
              | some (ws2, nx) =>
                  some (ws2,
                    (if (RecordWitness.NextRecordPtr pn d).closer_than
                          (update_record_witness ws rn
                            (RecordWitness.NextRecordPtr pn d)).2 then
                        hdr.record_backptrs.map (fun p => (p.ptr, rn))
                      else []) ++ nx)) from rfl] at h
      cases hhs : hs rn with
      | none => rw [hhs] at h; exact absurd h (by simp)
      | some hdr =>
          rw [hhs] at h
          cases hrec : propagationRound hs d rest
              (update_record_witness ws rn
                (RecordWitness.NextRecordPtr pn d)).1 with
          | none => rw [hrec] at h; simp at h
          | some pr =>
              obtain ⟨ws2, nx⟩ := pr
              rw [hrec] at h
              simp only [Option.some.injEq, Prod.mk.injEq] at h
              obtain ⟨hws, hnext⟩ := h
              subst hws
              by_cases hcond : (RecordWitness.NextRecordPtr pn d).closer_than
                  (update_record_witness ws rn
                    (RecordWitness.NextRecordPtr pn d)).2 = true
              · refine ⟨rn, ⟨hdr, hhs⟩, ?_, ?_⟩
                · have := (RecordWitness.closer_than_iff_rank _ _).mp hcond
                  rw [update_record_witness_snd] at this
                  simpa [RecordWitness.rank] using this
                · have hle := propagationRound_rank_le hs d rest _ _ _ hrec rn
                  have hupd : ((update_record_witness ws rn
                      (RecordWitness.NextRecordPtr pn d)).1 rn).rank ≤
                      ((d + 1 : Nat) : WithTop Nat) := by
                    have hmin := RecordWitness.rank_closer (ws rn)
                      (RecordWitness.NextRecordPtr pn d)
                    have hfst : ((update_record_witness ws rn
                        (RecordWitness.NextRecordPtr pn d)).1 rn) =
                        RecordWitness.closer (ws rn)
                          (RecordWitness.NextRecordPtr pn d) := by
                      simp [update_record_witness]
                    rw [hfst, hmin]
                    exact min_le_right _ _
                  exact le_trans hle hupd
              · rw [if_neg hcond, List.nil_append] at hnext
                subst hnext
                obtain ⟨n, hn1, hn2, hn3⟩ := ih _ _ hrec hne
                refine ⟨n, hn1, ?_, hn3⟩
                exact lt_of_lt_of_le hn2
                  (update_record_witness_rank_le ws rn _ n)

theorem storeLookup_mem (store : List (Hash × RecordHeader)) (n : Hash)
    (hdr : RecordHeader) (h : storeLookup store n = some hdr) :
    n ∈ (store.map (fun e => e.1)).toFinset := by
  simp only [storeLookup, Option.map_eq_some'] at h
  obtain ⟨e, he, -⟩ := h
  have hmem := List.mem_of_find?_eq_some he
  have hpred := List.find?_some he
  simp only [decide_eq_true_eq] at hpred
  simp only [List.mem_toFinset, List.mem_map]
  exact ⟨e, hmem, hpred⟩

theorem improvableSet_subset (store : List (Hash × RecordHeader)) (d : Nat)
    (wave : List (Hash × Hash)) (ws ws1 : WitnessStore)
    (next : List (Hash × Hash))
    (h : propagationRound (storeLookup store) d wave ws = some (ws1, next)) :
    improvableSet store ws1 (d + 1) ⊆ improvableSet store ws d := by
  intro n hn
  simp only [improvableSet, Finset.mem_filter] at hn ⊢
  refine ⟨hn.1, ?_⟩
  have h1 : ((d + 1 : Nat) : WithTop Nat) < ((d + 1 + 1 : Nat) : WithTop Nat) :=
    Nat.cast_lt.mpr (Nat.lt_succ_self _)
  have h2 : ((d + 1 : Nat) : WithTop Nat) < (ws1 n).rank := lt_trans h1 hn.2
  exact lt_of_lt_of_le h2
    (propagationRound_rank_le (storeLookup store) d wave ws ws1 next h n)

theorem improvableSet_card_lt (store : List (Hash × RecordHeader)) (d : Nat)
    (wave : List (Hash × Hash)) (ws ws1 : WitnessStore)
    (next : List (Hash × Hash))
    (h : propagationRound (storeLookup store) d wave ws = some (ws1, next))
    (hne : next ≠ []) :
    (improvableSet store ws1 (d + 1)).card < (improvableSet store ws d).card := by
  obtain ⟨n, ⟨hdr, hhs⟩, hfar, hclose⟩ :=
    propagationRound_expansion (storeLookup store) d wave ws ws1 next h hne
  apply Finset.card_lt_card
  rw [Finset.ssubset_iff_of_subset (improvableSet_subset store d wave ws ws1 next h)]
  refine ⟨n, ?_, ?_⟩
  · simp only [improvableSet, Finset.mem_filter]
    exact ⟨storeLookup_mem store n hdr hhs, hfar⟩
  · simp only [improvableSet, Finset.mem_filter, not_and]
    intro _
    have h2 : ((d + 1 : Nat) : WithTop Nat) < ((d + 1 + 1 : Nat) : WithTop Nat) :=
      Nat.cast_lt.mpr (Nat.lt_succ_self _)
    exact not_lt.mpr (le_trans hclose (le_of_lt h2))

theorem propagationLoop_empty_wave (hs : HeaderStore) (fuel : Nat)
    (wave : List (Hash × Hash)) (d : Nat) (ws : WitnessStore)
    (hw : wave.isEmpty = true) :
    propagationLoop hs fuel wave d ws = some (some ws) := by
  cases fuel <;> simp [propagationLoop, hw]

theorem propagationLoop_enough_fuel (store : List (Hash × RecordHeader))
    (k : Nat) :
    ∀ (ws : WitnessStore) (wave : List (Hash × Hash)) (d : Nat),
      (improvableSet store ws d).card ≤ k →
      propagationLoop (storeLookup store) (k + 1) wave d ws ≠ none := by
  induction k using Nat.strong_induction_on with
  | _ k ih =>
      intro ws wave d hcard
      by_cases hw : wave.isEmpty = true
      · rw [propagationLoop_empty_wave _ _ _ _ _ hw]
        simp
      · rw [show propagationLoop (storeLookup store) (k + 1) wave d ws =
            (match propagationRound (storeLookup store) d wave ws with
             | Option.none => some Option.none
             | some (ws1, next) =>
                propagationLoop (storeLookup store) k next (d + 1) ws1) by
          simp [propagationLoop, hw]]
        cases hround : propagationRound (storeLookup store) d wave ws with
        | none => simp
        | some pr =>
            obtain ⟨ws1, next⟩ := pr
            dsimp only
            by_cases hne : next = []
            · subst hne
              rw [propagationLoop_empty_wave _ k [] (d + 1) ws1 rfl]
              simp
            · have hlt := improvableSet_card_lt store d wave ws ws1 next hround hne
              have hk : (improvableSet store ws1 (d + 1)).card < k :=
                lt_of_lt_of_le hlt hcard
              obtain ⟨k2, rfl⟩ : ∃ k2, k = k2 + 1 :=
                ⟨k - 1, by omega⟩
              exact ih k2 (by omega) ws1 next (d + 1) (by omega)

/-- The backptr edge relation among stored records. -/
def backptrEdge (hs : HeaderStore) (a b : Hash) : Prop :=
  ∃ hdr, hs a = some hdr ∧ ∃ bp ∈ hdr.record_backptrs, bp.ptr = b

/-- Acyclicity of the stored backptr relation. -/
def acyclicBackptrs (hs : HeaderStore) : Prop :=
  ∀ n, ¬ Relation.TransGen (backptrEdge hs) n n

/-- C8: witness propagation termination.  On any finite header store whose
backptr relation is acyclic, `update_ancestor_witnesses` started at a signed
base record empties its BFS wave after finitely many rounds: some finite fuel
suffices (the proof exhibits the bound `|improvable records| + 1`, using that
a record is re-expanded only when its stored witness strictly improves while
the proposed distance grows every round). -/
theorem witness_propagation_terminates (store : List (Hash × RecordHeader))
    (ws : WitnessStore) (base_record_name : Hash)
    (hacyc : acyclicBackptrs (storeLookup store))
    (hsigned : ∃ σ, ws base_record_name = RecordWitness.Signature σ) :
    ∃ fuel,
      update_ancestor_witnesses (storeLookup store) ws base_record_name fuel ≠
        none := by
  unfold update_ancestor_witnesses
  cases hhs : storeLookup store base_record_name with
  | none => exact ⟨0, by simp⟩
  | some hdr =>
      refine ⟨(improvableSet store ws 1).card + 1, ?_⟩
      exact propagationLoop_enough_fuel store _ ws _ 1 (le_refl _)

/-- Witness: a store with a single backptr-free record is acyclic, and
propagation from it terminates. -/
theorem witness_propagation_terminates_witness :
    acyclicBackptrs (storeLookup [([1], RecordHeader.mk [0] [])]) ∧
    ∃ fuel,
      update_ancestor_witnesses (storeLookup [([1], RecordHeader.mk [0] [])])
        (fun _ => RecordWitness.Signature []) [1] fuel ≠ none := by
  have hedge : ∀ a b, ¬ backptrEdge (storeLookup [([1], RecordHeader.mk [0] [])]) a b := by
    rintro a b ⟨hdr, hh, bp, hbp, -⟩
    have hdef : hdr = RecordHeader.mk [0] [] := by
      simp only [storeLookup, Option.map_eq_some'] at hh
      obtain ⟨e, he, hee⟩ := hh
      have hmem := List.mem_of_find?_eq_some he
      simp only [List.mem_singleton] at hmem
      subst hmem
      exact hee.symm
    subst hdef
    simp at hbp
  have hacyc : acyclicBackptrs (storeLookup [([1], RecordHeader.mk [0] [])]) := by
    intro n h
    cases h with
    | single h1 => exact hedge _ _ h1
    | tail h1 h2 => exact hedge _ _ h2
  exact ⟨hacyc,
    witness_propagation_terminates _ _ _ hacyc ⟨[], rfl⟩⟩

/-! ### Merkle tree construction (rustdc/src/shared/merkle.rs) -/

/-- Pad a group of child hashes with `NULL_HASH` to exactly `F` entries
(`let mut last_tree = [NULL_HASH; FANOUT]; last_tree[..len_last_tree]
.copy_from_slice(...)`). -/
def padTo (F : Nat) (g : List Hash) : List Hash :=
  g ++ List.replicate (F - g.length) NULL_HASH

/-- One pass of the loop body of `merkle_tree_root`: hash the layer in full
groups of `F` left to right, the last (possibly short) group padded with
`NULL_HASH`.  `hn` is the external `hash_node`; `FANOUT` is the parameter `F`
(its value lives in the config module; the spec fixes `2 ≤ F`).  The `F = 0`
guard only makes the function total where the source would divide by zero. -/
def merkleRound (F : Nat) (hn : List Hash → Hash) (l : List Hash) : List Hash :=
  if h : l.length ≤ F ∨ F = 0 then [hn (padTo F l)]
  else hn (l.take F) :: merkleRound F hn (l.drop F)
termination_by l.length
decreasing_by
  simp only [List.length_drop]
  omega

/-- The `loop { ... if current_layer.len() == 1 { break } }` of
`merkle_tree_root`, fuelled.  Note this is a do-while: the body runs at least
once. -/
def merkleLoop (F : Nat) (hn : List Hash → Hash) : Nat → List Hash → Option Hash
  | 0, _ => none
  | fuel + 1, layer =>
      let next := merkleRound F hn layer
      if next.length = 1 then some (next.headD NULL_HASH)
      else merkleLoop F hn fuel next

/-- `merkle_tree_root(hashes, additional_hash)` from
rustdc/src/shared/merkle.rs. -/
def merkle_tree_root (F : Nat) (hn : List Hash → Hash) (hashes : List Hash)
    (additional_hash : Hash) (fuel : Nat) : Option Hash :=
  merkleLoop F hn fuel (additional_hash :: hashes)

/-- Spec §4.2, written from the spec words: partition the layer into groups
of `F` left-to-right. -/
def specGroups (F : Nat) (l : List Hash) : List (List Hash) :=
  if h : l = [] ∨ F = 0 then []
  else l.take F :: specGroups F (l.drop F)
termination_by l.length
decreasing_by
  simp only [List.length_drop]
  rcases Nat.eq_zero_or_pos l.length with h0 | h0
  · exact absurd (List.length_eq_zero.mp h0) (by tauto)
  · omega

/-- Spec §4.2, one while-iteration: pad the final group with `NULL_HASH` to
exactly `F` (padding leaves a full group unchanged) and hash each group's
concatenation. -/
def specRound (F : Nat) (hn : List Hash → Hash) (l : List Hash) : List Hash :=
  (specGroups F l).map (fun g => hn (padTo F g))

/-- Spec §4.2 loop: while `|layer| > 1`, replace the layer by `specRound`. -/
def specMerkleLoop (F : Nat) (hn : List Hash → Hash) :
    Nat → List Hash → Option (List Hash)
  | 0, layer => if layer.length ≤ 1 then some layer else none
  | fuel + 1, layer =>
      if layer.length ≤ 1 then some layer
      else specMerkleLoop F hn fuel (specRound F hn layer)

/-- Spec §4.2: start from `[A, R1, ..., Rn]`, run the while-loop, return the
single remaining element as the root. -/
def specMerkleRoot (F : Nat) (hn : List Hash → Hash) (hashes : List Hash)
    (additional_hash : Hash) (fuel : Nat) : Option Hash :=
  (specMerkleLoop F hn fuel (additional_hash :: hashes)).map
    (fun l => l.headD NULL_HASH)

theorem padTo_of_length_eq (F : Nat) (g : List Hash) (h : g.length = F) :
    padTo F g = g := by
  simp [padTo, h]

theorem merkleRound_eq_specRound (F : Nat) (hn : List Hash → Hash)
    (hF : 1 ≤ F) :
    ∀ (g : Nat) (l : List Hash), l.length ≤ g → l ≠ [] →
      merkleRound F hn l = specRound F hn l := by
  intro g
  induction g with
  | zero =>
      intro l hg hne
      exact absurd (List.length_eq_zero.mp (Nat.le_zero.mp hg)) hne
  | succ g ih =>
      intro l hg hne
      rw [merkleRound]
      by_cases hle : l.length ≤ F
      · rw [dif_pos (Or.inl hle)]
        rw [specRound, specGroups, dif_neg (by
          push_neg
          exact ⟨hne, by omega⟩)]
        have hdrop : l.drop F = [] := List.drop_eq_nil_of_le hle
        rw [hdrop, specGroups, dif_pos (Or.inl rfl)]
        rw [List.take_of_length_le hle]
        simp
      · rw [dif_neg (by push_neg; constructor <;> omega)]
        rw [specRound, specGroups, dif_neg (by
          push_neg
          exact ⟨hne, by omega⟩)]
        simp only [List.map_cons]
        have htake : (l.take F).length = F :=
          List.length_take_of_le (by omega)
        rw [padTo_of_length_eq F _ htake]
        have hrec := ih (l.drop F)
          (by simp only [List.length_drop]; omega)
          (by
            intro habs
            have := congrArg List.length habs
            simp only [List.length_drop, List.length_nil] at this
            omega)
        rw [hrec, specRound]

theorem merkleRound_ne_nil (F : Nat) (hn : List Hash → Hash) (l : List Hash) :
    merkleRound F hn l ≠ [] := by
  rw [merkleRound]
  split <;> simp

theorem merkleRound_length_lt (F : Nat) (hn : List Hash → Hash) (hF : 2 ≤ F) :
    ∀ (g : Nat) (l : List Hash), l.length ≤ g → 2 ≤ l.length →
      (merkleRound F hn l).length < l.length := by
  intro g
  induction g with
  | zero =>
      intro l hg h2
      omega
  | succ g ih =>
      intro l hg h2
      rw [merkleRound]
      by_cases hle : l.length ≤ F
      · rw [dif_pos (Or.inl hle)]
        simpa using h2
      · rw [dif_neg (by push_neg; constructor <;> omega)]
        simp only [List.length_cons]
        by_cases h2d : 2 ≤ (l.drop F).length
        · have := ih (l.drop F) (by simp only [List.length_drop]; omega) h2d
          simp only [List.length_drop] at this ⊢
          omega
        · rw [merkleRound]
          rw [dif_pos (Or.inl (by simp only [List.length_drop] at h2d ⊢; omega))]
          simp only [List.length_singleton]
          omega

theorem specMerkleLoop_short (F : Nat) (hn : List Hash → Hash) (fuel : Nat)
    (layer : List Hash) (h : layer.length ≤ 1) :
    specMerkleLoop F hn fuel layer = some layer := by
  cases fuel <;> simp [specMerkleLoop, h]

theorem merkleLoop_eq_specMerkleLoop (F : Nat) (hn : List Hash → Hash)
    (hF : 2 ≤ F) :
    ∀ (fuel : Nat) (layer : List Hash), 2 ≤ layer.length →
      merkleLoop F hn fuel layer =
        (specMerkleLoop F hn fuel layer).map (fun l => l.headD NULL_HASH) := by
  intro fuel
  induction fuel with
  | zero =>
      intro layer h2
      simp only [merkleLoop, specMerkleLoop]
      rw [if_neg (by omega)]
      rfl
  | succ fuel ih =>
      intro layer h2
      rw [show merkleLoop F hn (fuel + 1) layer =
          (if (merkleRound F hn layer).length = 1 then
            some ((merkleRound F hn layer).headD NULL_HASH)
          else merkleLoop F hn fuel (merkleRound F hn layer)) from rfl]
      rw [show specMerkleLoop F hn (fuel + 1) layer =
          (if layer.length ≤ 1 then some layer
           else specMerkleLoop F hn fuel (specRound F hn layer)) from rfl]
      rw [if_neg (show ¬ layer.length ≤ 1 by omega)]
      rw [← merkleRound_eq_specRound F hn (by omega) layer.length layer
        (le_refl _) (by intro habs; subst habs; simp at h2)]
      by_cases h1 : (merkleRound F hn layer).length = 1
      · rw [if_pos h1]
        rw [specMerkleLoop_short F hn fuel _ (by omega)]
        rfl
      · rw [if_neg h1]
        have hne := merkleRound_ne_nil F hn layer
        have hlen : 2 ≤ (merkleRound F hn layer).length := by
          have h0 : (merkleRound F hn layer).length ≠ 0 := by
            intro h0
            exact hne (List.length_eq_zero.mp h0)
          omega
        exact ih (merkleRound F hn layer) hlen

theorem merkleLoop_isSome (F : Nat) (hn : List Hash → Hash) (hF : 2 ≤ F) :
    ∀ (fuel : Nat) (layer : List Hash), 1 ≤ layer.length →
      layer.length ≤ fuel → (merkleLoop F hn fuel layer).isSome = true := by
  intro fuel
  induction fuel with
  | zero => intro layer h1 h2; omega
  | succ fuel ih =>
      intro layer h1 hle
      rw [show merkleLoop F hn (fuel + 1) layer =
          (if (merkleRound F hn layer).length = 1 then
            some ((merkleRound F hn layer).headD NULL_HASH)
          else merkleLoop F hn fuel (merkleRound F hn layer)) from rfl]
      by_cases hlen1 : (merkleRound F hn layer).length = 1
      · rw [if_pos hlen1]; rfl
      · rw [if_neg hlen1]
        have hne := merkleRound_ne_nil F hn layer
        have hge1 : 1 ≤ (merkleRound F hn layer).length := by
          rcases Nat.eq_zero_or_pos (merkleRound F hn layer).length with h0 | h0
          · exact absurd (List.length_eq_zero.mp h0) hne
          · exact h0
        by_cases h2 : 2 ≤ layer.length
        · have := merkleRound_length_lt F hn hF layer.length layer (le_refl _) h2
          exact ih _ hge1 (by omega)
        · exfalso
          have hl1 : layer.length = 1 := by omega
          apply hlen1
          rw [merkleRound, dif_pos (Or.inl (by omega))]
          rfl

/-- A concrete constant node-hash function for the counterexample. -/
def cHn9 : List Hash → Hash := fun _ => [9]

/-- C6 as stated is false for the empty record list: the source loop is a
do-while and hashes the singleton start layer `[A]` once, while the spec's
while-loop returns `A` unchanged. -/
theorem merkle_root_counterexample :
    merkle_tree_root 4 cHn9 [] [1] 1 = some [9] ∧
    specMerkleRoot 4 cHn9 [] [1] 1 = some [1] ∧
    ([9] : Hash) ≠ [1] := by
  refine ⟨?_, ?_, by decide⟩
  · rw [merkle_tree_root,
      show merkleLoop 4 cHn9 1 [[1]] =
        (if (merkleRound 4 cHn9 [[1]]).length = 1 then
          some ((merkleRound 4 cHn9 [[1]]).headD NULL_HASH)
        else merkleLoop 4 cHn9 0 (merkleRound 4 cHn9 [[1]])) from rfl]
    rw [merkleRound, dif_pos (Or.inl (by simp))]
    simp [cHn9]
  · rw [specMerkleRoot, specMerkleLoop_short 4 cHn9 1 [[1]] (by simp)]
    rfl

/-- C6 (amended): for every `FANOUT ≥ 2` and every NONEMPTY list of record
hashes, `merkle_tree_root` agrees with the spec §4.2 algorithm at every fuel,
and the fuel `n + 1` suffices for `n` record hashes; on the empty list the
code instead hashes the singleton layer `[A]` once, returning
`hash_node(pad([A]))` where the spec's algorithm returns `A`. -/
theorem merkle_root_conformance (F : Nat) (hn : List Hash → Hash)
    (hashes : List Hash) (additional_hash : Hash) (hF : 2 ≤ F)
    (hne : hashes ≠ []) :
    (∀ fuel, merkle_tree_root F hn hashes additional_hash fuel =
      specMerkleRoot F hn hashes additional_hash fuel) ∧
    (merkle_tree_root F hn hashes additional_hash
        (hashes.length + 1)).isSome = true ∧
    (∀ fuel A, merkle_tree_root F hn [] A (fuel + 1) =
      some (hn (padTo F [A]))) := by
  refine ⟨?_, ?_, ?_⟩
  · intro fuel
    rw [merkle_tree_root, specMerkleRoot]
    exact merkleLoop_eq_specMerkleLoop F hn hF fuel _
      (by cases hashes with
          | nil => exact absurd rfl hne
          | cons a t => simp)
  · rw [merkle_tree_root]
    exact merkleLoop_isSome F hn hF _ _ (by simp) (by simp)
  · intro fuel A
    rw [merkle_tree_root,
      show merkleLoop F hn (fuel + 1) [A] =
        (if (merkleRound F hn [A]).length = 1 then
          some ((merkleRound F hn [A]).headD NULL_HASH)
        else merkleLoop F hn fuel (merkleRound F hn [A])) from rfl]
    rw [merkleRound, dif_pos (Or.inl (by simp; omega))]
    rfl

/-- Witness for the amended C6 at `F = 4` and one record hash. -/
theorem merkle_root_conformance_witness :
    (2 ≤ 4 ∧ ([[2]] : List Hash) ≠ []) ∧
    merkle_tree_root 4 cHn9 [[2]] [1] 2 = specMerkleRoot 4 cHn9 [[2]] [1] 2 :=
  ⟨⟨by decide, by decide⟩,
   (merkle_root_conformance 4 cHn9 [[2]] [1] (by decide) (by decide)).1 2⟩

/-- `TreeNode` from rustdc/src/shared/merkle.rs. -/
structure TreeNode where
  name : Hash
  parent : Option Hash
  signed : Bool
  children : List Hash
deriving DecidableEq, Repr

/-- `RecordBlock` from rustdc/src/shared/merkle.rs. -/
structure RecordBlock where
  name : Hash
  parent : Hash
deriving DecidableEq, Repr

/-- The tree nodes pushed by one loop pass of `merkle_tree_storage`: one per
full group of `F`, then one for the padded last group; parents unset, signed
false, children as grouped. -/
def roundNodes (F : Nat) (hn : List Hash → Hash) (l : List Hash) :
    List TreeNode :=
  if h : l.length ≤ F ∨ F = 0 then
    [⟨hn (padTo F l), Option.none, false, padTo F l⟩]
  else
    ⟨hn (l.take F), Option.none, false, l.take F⟩ :: roundNodes F hn (l.drop F)
termination_by l.length
decreasing_by
  simp only [List.length_drop]
  omega

/-- In-place update `treeblocks[idx].parent = Some(p)`.  (An out-of-range
index would panic in the source; modelled as a no-op, and never reached.) -/
def setParentAt (tbs : List TreeNode) (idx : Nat) (p : Hash) : List TreeNode :=
  match tbs[idx]? with
  | some tn => tbs.set idx { tn with parent := some p }
  | Option.none => tbs

/-- The depth > 0 parent-fixing loop of `merkle_tree_storage`:
`treeblocks[start_idx + i].parent = Some(next_layer[i / FANOUT])` for
`i in 0..current_layer.len()`. -/
def setPrevParents (F : Nat) (tbs : List TreeNode) (start curLen : Nat)
    (next : List Hash) : List TreeNode :=
  (List.range curLen).foldl
    (fun t i => setParentAt t (start + i) (next.getD (i / F) NULL_HASH)) tbs

/-- `treeblocks.last_mut().unwrap().signed = true` after the loop. -/
def setSignedLast (tbs : List TreeNode) : List TreeNode :=
  match tbs.getLast? with
  | some tn => tbs.dropLast ++ [{ tn with signed := true }]
  | Option.none => tbs

/-- The fuelled main loop of `merkle_tree_storage`, carrying record blocks,
tree blocks, and the additional-hash parent. -/
def storageLoop (F : Nat) (hn : List Hash → Hash) :
    Nat → List Hash → Nat → List RecordBlock → List TreeNode → Hash →
    Option (List RecordBlock × List TreeNode × Hash × Hash × Nat)
  | 0, _, _, _, _, _ => none
  | fuel + 1, layer, depth, records, tbs, ahp =>
      let next := merkleRound F hn layer
      let tbs1 := tbs ++ roundNodes F hn layer
      let records1 :=
        if depth = 0 then
          records ++ (List.range (layer.length - 1)).map
            (fun i => RecordBlock.mk (layer.getD (i + 1) NULL_HASH)
              (next.getD ((i + 1) / F) NULL_HASH))
        else records
      let ahp1 := if depth = 0 then next.headD NULL_HASH else ahp
      let tbs2 :=
        if depth = 0 then tbs1
        else
          setPrevParents F tbs1 (tbs1.length - next.length - layer.length)
            layer.length next
      if next.length = 1 then
        some (records1, setSignedLast tbs2, ahp1, next.headD NULL_HASH,
          depth + 1)
      else storageLoop F hn fuel next (depth + 1) records1 tbs2 ahp1

/-- `merkle_tree_storage(hashes, additional_hash)` from
rustdc/src/shared/merkle.rs. -/
def merkle_tree_storage (F : Nat) (hn : List Hash → Hash) (hashes : List Hash)
    (additional_hash : Hash) (fuel : Nat) :
    Option (List RecordBlock × List TreeNode × Hash × Hash × Nat) :=
  storageLoop F hn fuel (additional_hash :: hashes) 0 [] [] NULL_HASH

theorem roundNodes_signed_false (F : Nat) (hn : List Hash → Hash) :
    ∀ (g : Nat) (l : List Hash), l.length ≤ g →
      ∀ tn ∈ roundNodes F hn l, tn.signed = false := by
  intro g
  induction g with
  | zero =>
      intro l hg tn htn
      have : l = [] := List.length_eq_zero.mp (Nat.le_zero.mp hg)
      subst this
      rw [roundNodes, dif_pos (Or.inl (by simp))] at htn
      simp only [List.mem_singleton] at htn
      subst htn
      rfl
  | succ g ih =>
      intro l hg tn htn
      rw [roundNodes] at htn
      by_cases hc : l.length ≤ F ∨ F = 0
      · rw [dif_pos hc] at htn
        simp only [List.mem_singleton] at htn
        subst htn
        rfl
      · rw [dif_neg hc] at htn
        rcases List.mem_cons.mp htn with h0 | h0
        · subst h0; rfl
        · exact ih (l.drop F)
            (by simp only [List.length_drop]; push_neg at hc; omega) tn h0

theorem roundNodes_ne_nil (F : Nat) (hn : List Hash → Hash) (l : List Hash) :
    roundNodes F hn l ≠ [] := by
  rw [roundNodes]
  split <;> simp

theorem roundNodes_names (F : Nat) (hn : List Hash → Hash) :
    ∀ (g : Nat) (l : List Hash), l.length ≤ g →
      (roundNodes F hn l).map (fun tn => tn.name) = merkleRound F hn l := by
  intro g
  induction g with
  | zero =>
      intro l hg
      have : l = [] := List.length_eq_zero.mp (Nat.le_zero.mp hg)
      subst this
      rw [roundNodes, dif_pos (Or.inl (by simp)),
        merkleRound, dif_pos (Or.inl (by simp))]
      rfl
  | succ g ih =>
      intro l hg
      rw [roundNodes, merkleRound]
      by_cases hc : l.length ≤ F ∨ F = 0
      · rw [dif_pos hc, dif_pos hc]
        rfl
      · rw [dif_neg hc, dif_neg hc]
        simp only [List.map_cons]
        rw [ih (l.drop F)
          (by simp only [List.length_drop]; push_neg at hc; omega)]

theorem list_set_self {α : Type} (l : List α) (i : Nat) (a : α)
    (h : l[i]? = some a) : l.set i a = l := by
  have hlt : i < l.length := by
    by_contra hge
    rw [List.getElem?_eq_none (by omega)] at h
    exact Option.noConfusion h
  apply List.ext_getElem?
  intro n
  by_cases hn : n = i
  · subst hn
    rw [List.getElem?_set_eq_of_lt a hlt, h]
  · rw [List.getElem?_set_ne (by omega)]

theorem setParentAt_name_signed (t : List TreeNode) (i : Nat) (p : Hash) :
    (setParentAt t i p).map (fun tn => (tn.name, tn.signed)) =
      t.map (fun tn => (tn.name, tn.signed)) := by
  unfold setParentAt
  cases ht : t[i]? with
  | none => rfl
  | some tn =>
      rw [List.map_set]
      have hms : (t.map (fun tn => (tn.name, tn.signed)))[i]? =
          some (tn.name, tn.signed) := by
        rw [List.getElem?_map, ht]
        rfl
      exact list_set_self _ i _ hms

theorem foldl_setParentAt_name_signed (f : Nat → Nat) (q : Nat → Hash) :
    ∀ (idxs : List Nat) (tbs : List TreeNode),
      ((idxs.foldl (fun t i => setParentAt t (f i) (q i)) tbs).map
        (fun tn => (tn.name, tn.signed))) =
      tbs.map (fun tn => (tn.name, tn.signed)) := by
  intro idxs
  induction idxs with
  | nil => intro tbs; rfl
  | cons a r ih =>
      intro tbs
      rw [List.foldl_cons, ih, setParentAt_name_signed]

theorem setPrevParents_name_signed (F : Nat) (tbs : List TreeNode)
    (start curLen : Nat) (next : List Hash) :
    (setPrevParents F tbs start curLen next).map (fun tn => (tn.name, tn.signed)) =
      tbs.map (fun tn => (tn.name, tn.signed)) := by
  exact foldl_setParentAt_name_signed (fun i => start + i)
    (fun i => next.getD (i / F) NULL_HASH) (List.range curLen) tbs

theorem name_signed_all_false (t u : List TreeNode)
    (hmap : t.map (fun tn => (tn.name, tn.signed)) =
      u.map (fun tn => (tn.name, tn.signed)))
    (hu : ∀ tn ∈ u, tn.signed = false) :
    ∀ tn ∈ t, tn.signed = false := by
  intro tn htn
  have : (tn.name, tn.signed) ∈ u.map (fun tn => (tn.name, tn.signed)) := by
    rw [← hmap]
    exact List.mem_map_of_mem _ htn
  obtain ⟨x, hx, hxe⟩ := List.mem_map.mp this
  have := hu x hx
  have h2 : tn.signed = x.signed := (congrArg Prod.snd hxe).symm
  rw [h2, this]

theorem name_signed_ne_nil (t u : List TreeNode)
    (hmap : t.map (fun tn => (tn.name, tn.signed)) =
      u.map (fun tn => (tn.name, tn.signed)))
    (hu : u ≠ []) : t ≠ [] := by
  intro habs
  subst habs
  cases u with
  | nil => exact hu rfl
  | cons a v => exact List.noConfusion hmap

theorem setSignedLast_shape (t : List TreeNode) (hne : t ≠ [])
    (hall : ∀ x ∈ t, x.signed = false) :
    ∃ u last, setSignedLast t = u ++ [last] ∧ last.signed = true ∧
      ∀ x ∈ u, x.signed = false := by
  unfold setSignedLast
  cases hl : t.getLast? with
  | none => exact absurd (List.getLast?_eq_none_iff.mp hl) hne
  | some tn =>
      exact ⟨t.dropLast, { tn with signed := true }, rfl, rfl,
        fun x hx => hall x ((List.dropLast_sublist t).subset hx)⟩

theorem storageLoop_root (F : Nat) (hn : List Hash → Hash) :
    ∀ (fuel : Nat) (layer : List Hash) (depth : Nat)
      (records : List RecordBlock) (tbs : List TreeNode) (ahp : Hash)
      (out : List RecordBlock × List TreeNode × Hash × Hash × Nat),
      storageLoop F hn fuel layer depth records tbs ahp = some out →
      merkleLoop F hn fuel layer = some out.2.2.2.1 := by
  intro fuel
  induction fuel with
  | zero =>
      intro layer depth records tbs ahp out h
      exact absurd h (by simp [storageLoop])
  | succ fuel ih =>
      intro layer depth records tbs ahp out h
      simp only [storageLoop] at h
      rw [show merkleLoop F hn (fuel + 1) layer =
          (if (merkleRound F hn layer).length = 1 then
            some ((merkleRound F hn layer).headD NULL_HASH)
          else merkleLoop F hn fuel (merkleRound F hn layer)) from rfl]
      by_cases h1 : (merkleRound F hn layer).length = 1
      · rw [if_pos h1] at h
        rw [if_pos h1]
        obtain rfl := Option.some.inj h
        rfl
      · rw [if_neg h1] at h
        rw [if_neg h1]
        exact ih _ _ _ _ _ _ h

theorem storageLoop_signed (F : Nat) (hn : List Hash → Hash) :
    ∀ (fuel : Nat) (layer : List Hash) (depth : Nat)
      (records : List RecordBlock) (tbs : List TreeNode) (ahp : Hash)
      (out : List RecordBlock × List TreeNode × Hash × Hash × Nat),
      storageLoop F hn fuel layer depth records tbs ahp = some out →
      (∀ tn ∈ tbs, tn.signed = false) →
      ∃ u last, out.2.1 = u ++ [last] ∧ last.signed = true ∧
        ∀ x ∈ u, x.signed = false := by
  intro fuel
  induction fuel with
  | zero =>
      intro layer depth records tbs ahp out h
      exact absurd h (by simp [storageLoop])
  | succ fuel ih =>
      intro layer depth records tbs ahp out h hall
      simp only [storageLoop] at h
      have htbs1 : ∀ tn ∈ tbs ++ roundNodes F hn layer, tn.signed = false := by
        intro tn htn
        rcases List.mem_append.mp htn with h0 | h0
        · exact hall tn h0
        · exact roundNodes_signed_false F hn layer.length layer (le_refl _) tn h0
      have htbs1ne : tbs ++ roundNodes F hn layer ≠ [] := by
        intro habs
        exact roundNodes_ne_nil F hn layer (List.append_eq_nil.mp habs).2
      have htbs2 : ∀ tn ∈ (if depth = 0 then tbs ++ roundNodes F hn layer
          else setPrevParents F (tbs ++ roundNodes F hn layer)
            ((tbs ++ roundNodes F hn layer).length -
              (merkleRound F hn layer).length - layer.length)
            layer.length (merkleRound F hn layer)), tn.signed = false := by
        by_cases hd : depth = 0
        · rw [if_pos hd]; exact htbs1
        · rw [if_neg hd]
          exact name_signed_all_false _ _
            (setPrevParents_name_signed F _ _ _ _) htbs1
      have htbs2ne : (if depth = 0 then tbs ++ roundNodes F hn layer
          else setPrevParents F (tbs ++ roundNodes F hn layer)
            ((tbs ++ roundNodes F hn layer).length -
              (merkleRound F hn layer).length - layer.length)
            layer.length (merkleRound F hn layer)) ≠ [] := by
        by_cases hd : depth = 0
        · rw [if_pos hd]; exact htbs1ne
        · rw [if_neg hd]
          exact name_signed_ne_nil _ _
            (setPrevParents_name_signed F _ _ _ _) htbs1ne
      by_cases h1 : (merkleRound F hn layer).length = 1
      · rw [if_pos h1] at h
        obtain rfl := Option.some.inj h
        exact setSignedLast_shape _ htbs2ne htbs2
      · rw [if_neg h1] at h
        exact ih _ _ _ _ _ _ h htbs2

/-- C7: the client's root computation and the server's storage-producing
construction agree - `merkle_tree_storage` returns the same root hash as
`merkle_tree_root` on the same inputs - and the `signed` flag is set on
exactly the last tree node `merkle_tree_storage` returns. -/
theorem merkle_storage_conformance (F : Nat) (hn : List Hash → Hash)
    (hashes : List Hash) (additional_hash : Hash) (fuel : Nat)
    (records : List RecordBlock) (tbs : List TreeNode) (ahp root : Hash)
    (depth : Nat)
    (h : merkle_tree_storage F hn hashes additional_hash fuel =
      some (records, tbs, ahp, root, depth)) :
    merkle_tree_root F hn hashes additional_hash fuel = some root ∧
    ∃ u last, tbs = u ++ [last] ∧ last.signed = true ∧
      ∀ x ∈ u, x.signed = false := by
  constructor
  · exact storageLoop_root F hn fuel _ 0 [] [] NULL_HASH _ h
  · have := storageLoop_signed F hn fuel _ 0 [] [] NULL_HASH _ h
      (by intro tn htn; simp at htn)
    simpa using this

/-- Witness: storage construction over no record hashes at `F = 2`. -/
theorem merkle_storage_conformance_witness :
    merkle_tree_storage 2 cHn9 [] [1] 1 =
      some ([], [⟨[9], Option.none, true, [[1], NULL_HASH]⟩], [9], [9], 1) ∧
    merkle_tree_root 2 cHn9 [] [1] 1 = some [9] := by
  have hmr : merkleRound 2 cHn9 [[1]] = [[9]] := by
    rw [merkleRound, dif_pos (Or.inl (by simp))]
    rfl
  have hrn : roundNodes 2 cHn9 [[1]] =
      [⟨[9], Option.none, false, [[1], NULL_HASH]⟩] := by
    rw [roundNodes, dif_pos (Or.inl (by simp))]
    rfl
  have hstor : merkle_tree_storage 2 cHn9 [] [1] 1 =
      some ([], [⟨[9], Option.none, true, [[1], NULL_HASH]⟩], [9], [9], 1) := by
    rw [merkle_tree_storage]
    simp only [storageLoop, hmr, hrn]
    rfl
  refine ⟨hstor, ?_⟩
  exact (merkle_storage_conformance 2 cHn9 [] [1] 1 _ _ _ _ _ hstor).1

/-! ### The client-synchronised proof cache (rustdc/src/readstate.rs) -/

/-- `cache_index`: the low 32 bits of the hash, little-endian, modulo
`CACHE_SIZE`.  The constant lives in the config module and is carried here
as the parameter `CS`. -/
def cache_index (CS : Nat) (h : Hash) : Nat :=
  (h.getD 0 0 + h.getD 1 0 * 256 + h.getD 2 0 * 65536 +
    h.getD 3 0 * 16777216) % CS

/-- `ReadState` from rustdc/src/readstate.rs (the cache shared between the
Merkle-mode server and client): a direct-mapped slot table of `CACHE_SIZE`
hashes, the last writer-signed hash, and the last proven interior node. -/
structure ReadState where
  hash_cache : List Hash
  last_signed_hash : Hash
  last_proven_node : List Hash
deriving DecidableEq, Repr

/-- `ReadState::new()`. -/
def ReadState.new (CS F : Nat) : ReadState :=
  ⟨List.replicate CS NULL_HASH, NULL_HASH, List.replicate F NULL_HASH⟩

/-- `ReadState::contains`: the last proven node's entries, then the direct
slot, then the last signed hash. -/
def ReadState.contains (CS : Nat) (s : ReadState) (h : Hash) : Bool :=
  decide (h ∈ s.last_proven_node) ||
  decide (s.hash_cache.getD (cache_index CS h) NULL_HASH = h) ||
  decide (s.last_signed_hash = h)

/-- `ReadState::add_signed_hash`: demote the previous last-signed hash into
its slot, then install the new one. -/
def ReadState.add_signed_hash (CS : Nat) (s : ReadState) (h : Hash) :
    ReadState :=
  { s with
    hash_cache := s.hash_cache.set (cache_index CS s.last_signed_hash)
      s.last_signed_hash,
    last_signed_hash := h }

/-- `ReadState::add_proven_node`: demote every entry of the previous last
proven node into its slot, then install the new node. -/
def ReadState.add_proven_node (CS : Nat) (s : ReadState) (b : List Hash) :
    ReadState :=
  { s with
    hash_cache := s.last_proven_node.foldl
      (fun hc x => hc.set (cache_index CS x) x) s.hash_cache,
    last_proven_node := b }

/-! ### Merkle-mode client verification (rexpapi/src/client/p2pclient.rs) -/

/-- Client-side error type (subset used by `verify_proof`). -/
inductive DCClientError where
  | BadSignature
  | BadProof (msg : String)
deriving DecidableEq, Repr

/-- The node loop of the Merkle-mode `verify_proof` plus the final target
check: each node must hash to an already-contained value and is then added
to the cache; finally the expected hash must be contained. -/
def verifyNodes (CS : Nat) (hn : List Hash → Hash) (expected_hash : Hash) :
    List (List Hash) → ReadState → Except DCClientError Unit × ReadState
  | [], rs =>
      (if rs.contains CS expected_hash then Except.ok ()
       else Except.error (DCClientError.BadProof "hash not proven"), rs)
  | b :: rest, rs =>
      if rs.contains CS (hn b) then
        verifyNodes CS hn expected_hash rest (rs.add_proven_node CS b)
      else (Except.error (DCClientError.BadProof "node not proven"), rs)

/-- Merkle-mode `verify_proof` from rexpapi/src/client/p2pclient.rs,
parameterised over the node hash `hn` and the writer-key signature check
`verifySig`.  The returned pair carries the final value of the mutable
`read_state`. -/
def mverify_proof (CS : Nat) (verifySig : DC.Signature → Hash → Bool)
    (hn : List Hash → Hash) (expected_hash : Hash)
    (root : Option (DC.Signature × Hash)) (nodes : List (List Hash))
    (rs : ReadState) : Except DCClientError Unit × ReadState :=
  match root with
  | some s =>
      if verifySig s.1 s.2 then
        verifyNodes CS hn expected_hash nodes (rs.add_signed_hash CS s.2)
      else (Except.error DCClientError.BadSignature, rs)
  | Option.none => verifyNodes CS hn expected_hash nodes rs

/-- The cache updates a proof prescribes: the signed root hash, if present,
then each node in order. -/
def applyProofUpdates (CS : Nat) (root : Option (DC.Signature × Hash))
    (nodes : List (List Hash)) (rs : ReadState) : ReadState :=
  nodes.foldl (fun st n => st.add_proven_node CS n)
    (match root with
     | some s => rs.add_signed_hash CS s.2
     | Option.none => rs)

theorem verifyNodes_state (CS : Nat) (hn : List Hash → Hash)
    (expected_hash : Hash) :
    ∀ (nodes : List (List Hash)) (rs : ReadState),
      ∃ k, k ≤ nodes.length ∧
        (verifyNodes CS hn expected_hash nodes rs).2 =
          (nodes.take k).foldl (fun st n => st.add_proven_node CS n) rs := by
  intro nodes
  induction nodes with
  | nil => intro rs; exact ⟨0, le_refl _, rfl⟩
  | cons b rest ih =>
      intro rs
      rw [verifyNodes]
      by_cases hc : rs.contains CS (hn b) = true
      · rw [if_pos hc]
        obtain ⟨k, hk, he⟩ := ih (rs.add_proven_node CS b)
        exact ⟨k + 1, by simpa using hk, by simpa using he⟩
      · rw [if_neg hc]
        exact ⟨0, by simp, rfl⟩

theorem verifyNodes_ok_state (CS : Nat) (hn : List Hash → Hash)
    (expected_hash : Hash) :
    ∀ (nodes : List (List Hash)) (rs rs2 : ReadState) (u : Unit),
      verifyNodes CS hn expected_hash nodes rs = (Except.ok u, rs2) →
      rs2 = nodes.foldl (fun st n => st.add_proven_node CS n) rs := by
  intro nodes
  induction nodes with
  | nil =>
      intro rs rs2 u h
      rw [verifyNodes] at h
      have := congrArg Prod.snd h
      simpa using this.symm
  | cons b rest ih =>
      intro rs rs2 u h
      rw [verifyNodes] at h
      by_cases hc : rs.contains CS (hn b) = true
      · rw [if_pos hc] at h
        simpa using ih _ _ u h
      · rw [if_neg hc] at h
        have := congrArg Prod.fst h
        simp at this

theorem mverify_ok_state (CS : Nat) (vs : DC.Signature → Hash → Bool)
    (hn : List Hash → Hash) (expected_hash : Hash)
    (root : Option (DC.Signature × Hash)) (nodes : List (List Hash))
    (rs rs2 : ReadState) (u : Unit)
    (h : mverify_proof CS vs hn expected_hash root nodes rs =
      (Except.ok u, rs2)) :
    rs2 = applyProofUpdates CS root nodes rs := by
  unfold mverify_proof at h
  unfold applyProofUpdates
  cases root with
  | none => exact verifyNodes_ok_state CS hn expected_hash nodes rs rs2 u h
  | some s =>
      dsimp only at h ⊢
      by_cases hv : vs s.1 s.2 = true
      · rw [if_pos hv] at h
        exact verifyNodes_ok_state CS hn expected_hash nodes _ rs2 u h
      · rw [if_neg hv] at h
        have := congrArg Prod.fst h
        simp at this

/-- A signature check that accepts everything (for counterexamples). -/
def cSigTrue : DC.Signature → Hash → Bool := fun _ _ => true

/-- C4 as stated is false on the code: the Merkle client applies
`add_signed_hash` before checking the nodes, so a response with a valid root
signature and one unproven node is rejected, yet the signed root hash
survives in the cache. -/
theorem mverify_reject_counterexample :
    ((mverify_proof 1 cSigTrue cHn9 [0] (some ([0], [5])) [[[7]]]
        (ReadState.new 1 1)).1.isOk = false) ∧
    (mverify_proof 1 cSigTrue cHn9 [0] (some ([0], [5])) [[[7]]]
        (ReadState.new 1 1)).2 ≠ ReadState.new 1 1 := by
  decide

/-- C4 (amended): when the Merkle client's `verify_proof` rejects, the cache
is not always rolled back: either the root signature check failed and the
cache is exactly as before, or the cache holds exactly the updates applied
before the failing check - the signed root hash and the first `k` proven
nodes for some `k ≤ |nodes|`. -/
theorem mverify_reject_partial_updates (CS : Nat)
    (vs : DC.Signature → Hash → Bool) (hn : List Hash → Hash)
    (expected_hash : Hash) (root : Option (DC.Signature × Hash))
    (nodes : List (List Hash)) (rs : ReadState)
    (herr : (mverify_proof CS vs hn expected_hash root nodes rs).1.isOk =
      false) :
    ((∃ s, root = some s ∧ vs s.1 s.2 = false) ∧
      (mverify_proof CS vs hn expected_hash root nodes rs).2 = rs) ∨
    (∃ k, k ≤ nodes.length ∧
      (mverify_proof CS vs hn expected_hash root nodes rs).2 =
        applyProofUpdates CS root (nodes.take k) rs) := by
  unfold mverify_proof at herr ⊢
  cases root with
  | none =>
      right
      obtain ⟨k, hk, he⟩ := verifyNodes_state CS hn expected_hash nodes rs
      exact ⟨k, hk, by rw [he]; rfl⟩
  | some s =>
      dsimp only at herr ⊢
      by_cases hv : vs s.1 s.2 = true
      · right
        rw [if_pos hv]
        obtain ⟨k, hk, he⟩ :=
          verifyNodes_state CS hn expected_hash nodes (rs.add_signed_hash CS s.2)
        exact ⟨k, hk, by rw [he]; rfl⟩
      · left
        rw [if_neg hv]
        exact ⟨⟨s, rfl, by simpa using hv⟩, rfl⟩

/-- Witness for the amended C4 at the counterexample input. -/
theorem mverify_reject_partial_updates_witness :
    ((mverify_proof 1 cSigTrue cHn9 [0] (some ([0], [5])) [[[7]]]
        (ReadState.new 1 1)).1.isOk = false) ∧
    (((∃ s, (some (([0] : DC.Signature), ([5] : Hash))) = some s ∧
        cSigTrue s.1 s.2 = false) ∧
      (mverify_proof 1 cSigTrue cHn9 [0] (some ([0], [5])) [[[7]]]
        (ReadState.new 1 1)).2 = ReadState.new 1 1) ∨
    (∃ k, k ≤ ([[[7]]] : List (List Hash)).length ∧
      (mverify_proof 1 cSigTrue cHn9 [0] (some ([0], [5])) [[[7]]]
        (ReadState.new 1 1)).2 =
        applyProofUpdates 1 (some ([0], [5])) (([[[7]]] :
          List (List Hash)).take k) (ReadState.new 1 1))) :=
  ⟨by decide,
   mverify_reject_partial_updates 1 cSigTrue cHn9 [0] (some ([0], [5]))
     [[[7]]] (ReadState.new 1 1) (by decide)⟩

/-! ### Merkle-mode server (rexpapi/src/server/writer.rs) -/

/-- `StoredNode` from rexpapi/src/server/storage.rs. -/
structure StoredNode where
  parent : Option Hash
  root_info : Option (Nat × DC.Signature)
  children : List Hash
deriving DecidableEq, Repr

/-- The per-session Merkle-mode server context (`DCContext` in
rexpapi/src/server/writer.rs): the record-parent table (`RecordStorage`),
the tree-node table (`NodeStorage`), the orphan table (`OrphanStorage`), the
uncommitted-write buffer, and the shared `ReadState`. -/
structure MDCContext where
  rs_store : Hash → Option Hash
  ns_store : Hash → Option StoredNode
  os : Hash → Option DC.Signature
  uncommitted_hashes : List Hash
  read_state : ReadState

/-- Merkle-mode responses used by the commit and proof paths. -/
inductive MResponse where
  | Commit (sig : DC.Signature)
  | Proof (root : Option (DC.Signature × Hash)) (nodes : List (List Hash))
  | Failed
deriving Repr

/-- The `while !ctx.read_state.contains(&hash)` climb of `build_proof`:
follow the parent pointers upward collecting each parent node's children,
stopping at a cached hash or at a signed root.  Outer `none` is fuel
exhaustion (the source loop is unbounded); `some Option.none` is the
`return Response::Failed` on a missing row; otherwise the collected nodes,
the optional root, and the root's parent pointer. -/
def buildProofLoop (CS : Nat) (ns : Hash → Option StoredNode)
    (rs : ReadState) :
    Nat → Hash → Hash → List (List Hash) →
    Option (Option (List (List Hash) × Option (DC.Signature × Hash) ×
      Option Hash))
  | 0, _, _, _ => none
  | fuel + 1, hash, parent, nodes =>
      if rs.contains CS hash then some (some (nodes, Option.none, Option.none))
      else
        match ns parent with
        | Option.none => some Option.none
        | some parent_node =>
            match parent_node.root_info with
            | some ri =>
                if rs.contains CS parent then
                  some (some (nodes ++ [parent_node.children], Option.none,
                    Option.none))
                else
                  some (some (nodes ++ [parent_node.children],
                    some (ri.2, parent), parent_node.parent))
            | Option.none =>
                match parent_node.parent with
                | some p =>
                    buildProofLoop CS ns rs fuel parent p
                      (nodes ++ [parent_node.children])
                | Option.none => some Option.none

/-- The signature-avoidance loop of `build_proof`: walk up to `SIG_AVOID`
further ancestors collecting extra nodes; on reaching a cached ancestor
return the extras to splice in (the signature is then dropped); on a missing
node, a missing parent, or exhaustion, keep the signature. -/
def sigAvoidLoop (CS : Nat) (ns : Hash → Option StoredNode) (rs : ReadState) :
    Nat → Option Hash → List (List Hash) → Option (List (List Hash))
  | 0, _, _ => Option.none
  | n + 1, root_parent, extras =>
      match root_parent with
      | Option.none => Option.none
      | some p =>
          match ns p with
          | Option.none => Option.none
          | some parent_node =>
              if rs.contains CS p then some (extras ++ [parent_node.children])
              else
                sigAvoidLoop CS ns rs n parent_node.parent
                  (extras ++ [parent_node.children])

/-- `build_proof` from rexpapi/src/server/writer.rs: climb to a cached hash
or signed root, optionally avoid the signature, reverse the node list, and
mirror the client's cache updates into the session `ReadState`. -/
def build_proof (CS SIG_AVOID : Nat) (ctx : MDCContext) (hash : Hash)
    (fuel : Nat) : Option (MResponse × MDCContext) :=
  match ctx.rs_store hash with
  | Option.none => some (MResponse.Failed, ctx)
  | some parent =>
      match buildProofLoop CS ctx.ns_store ctx.read_state fuel hash parent [] with
      | Option.none => none
      | some Option.none => some (MResponse.Failed, ctx)
      | some (some (nodes0, root0, root_parent)) =>
          let rn : Option (DC.Signature × Hash) × List (List Hash) :=
            if root0.isSome ∧ 0 < SIG_AVOID then
              match sigAvoidLoop CS ctx.ns_store ctx.read_state SIG_AVOID
                  root_parent [] with
              | some extras => (Option.none, nodes0 ++ extras)
              | Option.none => (root0, nodes0)
            else (root0, nodes0)
          let nodes := rn.2.reverse
          let rs1 :=
            match rn.1 with
            | some s => ctx.read_state.add_signed_hash CS s.2
            | Option.none => ctx.read_state
          let rs2 := nodes.foldl (fun st n => st.add_proven_node CS n) rs1
          some (MResponse.Proof rn.1 nodes, { ctx with read_state := rs2 })

theorem build_proof_read_state (CS SIG_AVOID : Nat) (ctx : MDCContext)
    (hash : Hash) (fuel : Nat) (root : Option (DC.Signature × Hash))
    (nodes : List (List Hash)) (ctxAfter : MDCContext)
    (h : build_proof CS SIG_AVOID ctx hash fuel =
      some (MResponse.Proof root nodes, ctxAfter)) :
    ctxAfter.read_state = applyProofUpdates CS root nodes ctx.read_state := by
  unfold build_proof at h
  cases hrs : ctx.rs_store hash with
  | none =>
      rw [hrs] at h
      dsimp only at h
      obtain ⟨h1, -⟩ := Prod.mk.injEq .. ▸ Option.some.inj h
      exact absurd h1 (by intro habs; exact MResponse.noConfusion habs)
  | some parent =>
      rw [hrs] at h
      dsimp only at h
      cases hbl : buildProofLoop CS ctx.ns_store ctx.read_state fuel hash
          parent [] with
      | none => rw [hbl] at h; exact Option.noConfusion h
      | some inner =>
          rw [hbl] at h
          cases inner with
          | none =>
              dsimp only at h
              obtain ⟨h1, -⟩ := Prod.mk.injEq .. ▸ Option.some.inj h
              exact absurd h1 (by intro habs; exact MResponse.noConfusion habs)
          | some triple =>
              obtain ⟨nodes0, root0, root_parent⟩ := triple
              dsimp only at h
              obtain ⟨h1, h2⟩ := Prod.mk.injEq .. ▸ Option.some.inj h
              obtain ⟨hroot, hnodes⟩ :=
                MResponse.Proof.injEq .. ▸ h1
              subst hroot
              subst hnodes
              rw [← h2]
              rfl

theorem mdc_read_state_mk (f : Hash → Option Hash)
    (g : Hash → Option StoredNode) (os : Hash → Option DC.Signature)
    (u : List Hash) (rs : ReadState) :
    (MDCContext.mk f g os u rs).read_state = rs := rfl

/-- C3: cache mirror (I6, Merkle mode).  If the server's `ReadState` equals
the client's before a Proof exchange and the client accepts the proof the
server built, then the two states are equal again afterwards: both sides
apply `add_signed_hash` to the same root hash and `add_proven_node` to the
same node tuples in the same order. -/
theorem cache_mirror (CS SIG_AVOID : Nat) (vs : DC.Signature → Hash → Bool)
    (hn : List Hash → Hash) (ctx : MDCContext) (target expected : Hash)
    (fuel : Nat) (rsClient : ReadState)
    (heq : ctx.read_state = rsClient)
    (root : Option (DC.Signature × Hash)) (nodes : List (List Hash))
    (ctxAfter : MDCContext)
    (hserver : build_proof CS SIG_AVOID ctx target fuel =
      some (MResponse.Proof root nodes, ctxAfter))
    (rsAfter : ReadState) (u : Unit)
    (hclient : mverify_proof CS vs hn expected root nodes rsClient =
      (Except.ok u, rsAfter)) :
    ctxAfter.read_state = rsAfter := by
  rw [build_proof_read_state CS SIG_AVOID ctx target fuel root nodes ctxAfter
    hserver]
  rw [mverify_ok_state CS vs hn expected root nodes rsClient rsAfter u hclient]
  rw [heq]

/-- Concrete session state for the C3 witness: the target hash `[1]` is the
last signed hash on both sides. -/
def W3s0 : ReadState := ⟨[NULL_HASH], [1], [NULL_HASH]⟩

/-- Concrete server context for the C3 witness. -/
def W3ctx : MDCContext :=
  ⟨fun n => if n = [1] then some [2] else Option.none,
   fun _ => Option.none, fun _ => Option.none, [], W3s0⟩

/-- Witness: a proof request for an already-cached hash yields an empty
proof; both sides keep their (equal) states. -/
theorem cache_mirror_witness :
    (build_proof 1 0 W3ctx [1] 1 =
      some (MResponse.Proof Option.none [], W3ctx)) ∧
    (mverify_proof 1 cSigTrue cHn9 [1] Option.none [] W3s0 =
      (Except.ok (), W3s0)) ∧
    W3ctx.read_state = W3s0 :=
  ⟨rfl, rfl,
   cache_mirror 1 0 cSigTrue cHn9 W3ctx [1] [1] 1 W3s0 rfl Option.none []
     W3ctx rfl W3s0 () rfl⟩

/-- `handle_commit` from rexpapi/src/server/writer.rs: build the Merkle
storage for the buffered hashes, CLEAR the buffer, verify the client
signature over the root, then persist record parents, tree nodes, the signed
root node, the orphan replacement, and (if present and parentless) the
additional hash's parent pointer.  `merkle_tree_storage` is the rustdc
variant, whose root tree node is the last node returned (its name is the
returned root hash).  The sled tables are modelled as total maps, so the
storage-error paths collapse; the signature-failure path is unchanged. -/
def handle_commit (F : Nat) (hn : List Hash → Hash)
    (vs : DC.Signature → Hash → Bool) (serverSign : Hash → DC.Signature)
    (ctx : MDCContext) (additional_hash : Hash)
    (client_signature : DC.Signature) (fuel : Nat) :
    Option (MResponse × MDCContext) :=
  match merkle_tree_storage F hn ctx.uncommitted_hashes additional_hash fuel with
  | Option.none => none
  | some (rbs, tns, additional_hash_parent, rootName, tree_depth) =>
      let ctx1 : MDCContext := { ctx with uncommitted_hashes := [] }
      if ¬ vs client_signature rootName then some (MResponse.Failed, ctx1)
      else
        let rsStore2 := rbs.foldl
          (fun st rb => fun n => if n = rb.name then some rb.parent else st n)
          ctx1.rs_store
        let nsStore2 := tns.foldl
          (fun st tn => fun n =>
            if n = tn.name then
              some (StoredNode.mk tn.parent Option.none tn.children)
            else st n)
          ctx1.ns_store
        let rootChildren :=
          (tns.getLastD (TreeNode.mk rootName Option.none true [])).children
        let nsStore3 := fun n =>
          if n = rootName then
            some (StoredNode.mk Option.none
              (some (tree_depth, client_signature)) rootChildren)
          else nsStore2 n
        let os2 := fun n =>
          if n = additional_hash then Option.none
          else if n = rootName then some client_signature else ctx1.os n
        match nsStore3 additional_hash with
        | some stored_node =>
            if stored_node.parent.isNone then
              some (MResponse.Commit (serverSign rootName),
                { ctx1 with
                  rs_store := rsStore2,
                  ns_store := fun n =>
                    if n = additional_hash then
                      some { stored_node with
                        parent := some additional_hash_parent }
                    else nsStore3 n,
                  os := os2 })
            else
              some (MResponse.Commit (serverSign rootName),
                { ctx1 with
                  rs_store := rsStore2,
                  ns_store := nsStore3,
                  os := os2 })
        | Option.none =>
            some (MResponse.Commit (serverSign rootName),
              { ctx1 with
                rs_store := rsStore2,
                ns_store := nsStore3,
                os := os2 })

/-- C10: `handle_commit` clears `uncommitted_hashes` before verifying the
client signature, so every reply - including a `Failed` caused by a bad
signature - leaves the buffer empty, discarding the hashes buffered by the
preceding writes rather than keeping them for a retry. -/
theorem commit_clears_uncommitted (F : Nat) (hn : List Hash → Hash)
    (vs : DC.Signature → Hash → Bool) (serverSign : Hash → DC.Signature)
    (ctx : MDCContext) (additional_hash : Hash)
    (client_signature : DC.Signature) (fuel : Nat)
    (out : MResponse × MDCContext)
    (h : handle_commit F hn vs serverSign ctx additional_hash
      client_signature fuel = some out) :
    out.2.uncommitted_hashes = [] ∧
    (∀ rbs tns ahp rootName depth,
      merkle_tree_storage F hn ctx.uncommitted_hashes additional_hash fuel =
        some (rbs, tns, ahp, rootName, depth) →
      vs client_signature rootName = false → out.1 = MResponse.Failed) := by
  unfold handle_commit at h
  cases hms : merkle_tree_storage F hn ctx.uncommitted_hashes additional_hash
      fuel with
  | none => rw [hms] at h; exact Option.noConfusion h
  | some tuple =>
      obtain ⟨rbs, tns, ahp, rootName, depth⟩ := tuple
      rw [hms] at h
      dsimp only at h
      by_cases hv : vs client_signature rootName = true
      · rw [if_neg (by simp [hv])] at h
        constructor
        · cases hns : (if additional_hash = rootName then
              some (StoredNode.mk Option.none (some (depth, client_signature))
                ((tns.getLastD (TreeNode.mk rootName Option.none true
                  [])).children))
            else
              (tns.foldl (fun st tn => fun n =>
                if n = tn.name then
                  some (StoredNode.mk tn.parent Option.none tn.children)
                else st n) ctx.ns_store) additional_hash) with
          | none =>
              rw [hns] at h
              obtain rfl := Option.some.inj h
              rfl
          | some stored_node =>
              rw [hns] at h
              dsimp only at h
              by_cases hp : stored_node.parent.isNone = true
              · rw [if_pos hp] at h
                obtain rfl := Option.some.inj h
                rfl
              · rw [if_neg hp] at h
                obtain rfl := Option.some.inj h
                rfl
        · intro rbs2 tns2 ahp2 rootName2 depth2 hms2 hbad
          have hcomb := Option.some.inj hms2
          have h4 : rootName = rootName2 :=
            congrArg (fun t => t.2.2.2.1) hcomb
          exfalso
          rw [← h4] at hbad
          rw [hv] at hbad
          exact Bool.true_eq_false.mp hbad
      · rw [if_pos (by simpa using hv)] at h
        obtain rfl := Option.some.inj h
        refine ⟨rfl, ?_⟩
        intro rbs2 tns2 ahp2 rootName2 depth2 hms2 hbad
        rfl

/-- Concrete context for the C10 witness: one buffered record hash. -/
def W10ctx : MDCContext :=
  ⟨fun _ => Option.none, fun _ => Option.none, fun _ => Option.none, [[3]],
   ReadState.new 1 1⟩

/-- A signature check that rejects everything (for the C10 witness). -/
def cSigFalse : DC.Signature → Hash → Bool := fun _ _ => false

/-- Witness: a commit whose signature fails still replies with an empty
uncommitted buffer. -/
theorem commit_clears_uncommitted_witness :
    (handle_commit 2 cHn9 cSigFalse (fun _ => []) W10ctx [1] [0] 1 =
      some (MResponse.Failed, { W10ctx with uncommitted_hashes := [] })) ∧
    ({ W10ctx with uncommitted_hashes := ([] : List Hash) } :
      MDCContext).uncommitted_hashes = [] := by
  have hmr : merkleRound 2 cHn9 [[1], [3]] = [[9]] := by
    rw [merkleRound, dif_pos (Or.inl (by simp))]
    rfl
  have hrn : roundNodes 2 cHn9 [[1], [3]] =
      [⟨[9], Option.none, false, [[1], [3]]⟩] := by
    rw [roundNodes, dif_pos (Or.inl (by simp))]
    rfl
  have hstor : merkle_tree_storage 2 cHn9 [[3]] [1] 1 =
      some ([⟨[3], [9]⟩], [⟨[9], Option.none, true, [[1], [3]]⟩], [9], [9],
        1) := by
    rw [merkle_tree_storage]
    simp only [storageLoop, hmr, hrn]
    rfl
  have hcommit : handle_commit 2 cHn9 cSigFalse (fun _ => []) W10ctx [1] [0]
      1 = some (MResponse.Failed, { W10ctx with uncommitted_hashes := [] }) := by
    unfold handle_commit
    rw [show W10ctx.uncommitted_hashes = [[3]] from rfl]
    rw [hstor]
    rfl
  refine ⟨hcommit, ?_⟩
  exact (commit_clears_uncommitted 2 cHn9 cSigFalse (fun _ => []) W10ctx [1]
    [0] 1 _ hcommit).1

end DC
